import Mathlib

/-!
Verification of the word-unscrambler program (src/main.rs).

The Rust source is shallowly embedded here: words are lists of `Char`
(Rust `char` iteration over a `String`), the 64-bit wrapping sum is a
`Nat` reduced modulo `2 ^ 64`, and the fingerprint-keyed `HashMap` is a
total function `Nat → Option (List Word)` (`none` models an absent
bucket, as returned by `HashMap::get`).
-/

namespace WordUnscrambler

/-- A word, as the sequence of characters produced by Rust `str::chars`. -/
abbrev Word := List Char

/-- The UTF-8 encoding of one character, as byte values; this is the byte
sequence Rust's `str::as_bytes` exposes for that character. -/
def utf8Bytes (c : Char) : List Nat :=
  let v := c.toNat
  if v < 128 then [v]
  else if v < 2048 then [192 + v / 64, 128 + v % 64]
  else if v < 65536 then [224 + v / 4096, 128 + v / 64 % 64, 128 + v % 64]
  else [240 + v / 262144, 128 + v / 4096 % 64, 128 + v / 64 % 64, 128 + v % 64]

/-- The UTF-8 bytes of a word (`search_word.as_bytes()`). -/
def wordBytes (w : Word) : List Nat :=
  w.flatMap utf8Bytes

/-- `associative_hash` from src/main.rs: the fold of `u64::wrapping_add`
over the byte values, starting from `0_u64`; each `u64` addition is
modelled as `Nat` addition reduced modulo `2 ^ 64`. -/
def associative_hash (s : List Nat) : Nat :=
  s.foldl (fun a b => (a + b) % 2 ^ 64) 0

/-- Rust `char::to_ascii_uppercase`: maps `a`-`z` to `A`-`Z` and leaves
every other character (including non-ASCII letters) unchanged. -/
def toAsciiUppercase (c : Char) : Char :=
  if 97 ≤ c.toNat ∧ c.toNat ≤ 122 then Char.ofNat (c.toNat - 32) else c

/-- Itertools `unique()` as used in `find_word_candidates`: keep the first
occurrence of each character, drop later duplicates.  `seen` is the set of
characters already emitted. -/
def uniqueAux (seen : List Char) : List Char → List Char
  | [] => []
  | c :: cs => if seen.contains c then uniqueAux seen cs else c :: uniqueAux (c :: seen) cs

/-- `search_word.chars().skip(..).unique()`'s dedup step. -/
def uniqueList (l : List Char) : List Char :=
  uniqueAux [] l

/-- The dictionary index: fingerprint → bucket of words, `none` when the
`HashMap` has no entry for that fingerprint. -/
abbrev DictMap := Nat → Option (List Word)

/-- The first closure passed to `filter` in `find_word_candidates`:
`first_char.map_or(true, |fc| word.chars().next().map_or(true, |first|
first.to_ascii_uppercase() == fc))`. -/
def first_letter_ok (first_char : Option Char) (word : Word) : Bool :=
  match first_char with
  | none => true
  | some fc =>
    match word.head? with
    | none => true
    | some first => toAsciiUppercase first == fc

/-- The second closure passed to `filter` in `find_word_candidates`: every
distinct character of `search_word` (skipping one character when
`first_char` is set) occurs equally often in `search_word` and in the
candidate `word`. -/
def anagram_ok (search_word : Word) (first_char : Option Char) (word : Word) : Bool :=
  (uniqueList (search_word.drop (if first_char.isSome then 1 else 0))).all
    fun c => search_word.count c == word.count c

/-- `find_word_candidates` from src/main.rs: look up the bucket for the
search word's fingerprint (empty result when absent), keep the words that
pass the first-letter filter and then the per-character-count filter, in
bucket order (`map(String::clone)` is the identity here). -/
def find_word_candidates (dictionary_map : DictMap) (search_word : Word)
    (first_char : Option Char) : List Word :=
  match dictionary_map (associative_hash (wordBytes search_word)) with
  | none => []
  | some words => (words.filter (first_letter_ok first_char)).filter (anagram_ok search_word first_char)

/-- `SPECIAL_CHARS_PRE` from src/main.rs. -/
def SPECIAL_CHARS_PRE : List Char := ['(', '„']

/-- `SPECIAL_CHARS_POST` from src/main.rs. -/
def SPECIAL_CHARS_POST : List Char := [',', '.', ')', '“', ':', '-', '?']

/-- The `SPECIAL_CHARS` static: the pre set chained with the post set. -/
def SPECIAL_CHARS : List Char := SPECIAL_CHARS_PRE ++ SPECIAL_CHARS_POST

/-- Rust `char::is_uppercase`, modelled on the character ranges this
program works with: ASCII `A`-`Z` and the Latin-1 uppercase letters
U+00C0-U+00DE minus the multiplication sign U+00D7.  Uppercase letters
outside these ranges are not modelled. -/
def char_is_uppercase (c : Char) : Bool :=
  (65 ≤ c.toNat ∧ c.toNat ≤ 90) ∨ (192 ≤ c.toNat ∧ c.toNat ≤ 222 ∧ c.toNat ≠ 215)

/-- Rust `char::to_lowercase` restricted to its single-character cases on
the ranges this program works with: ASCII `A`-`Z` and the Latin-1
uppercase letters U+00C0-U+00DE minus U+00D7 are shifted down to their
lowercase forms; every other character is left unchanged. -/
def charToLowercase (c : Char) : Char :=
  if (65 ≤ c.toNat ∧ c.toNat ≤ 90) ∨ (192 ≤ c.toNat ∧ c.toNat ≤ 222 ∧ c.toNat ≠ 215) then
    Char.ofNat (c.toNat + 32)
  else c

/-- `str::to_lowercase` as the character-wise map of `charToLowercase`. -/
def rust_to_lowercase (w : Word) : Word :=
  w.map charToLowercase

/-- The candidate fix-up loop in `unscramble_line`:
`if let Some(first_char) = word.get_mut(..1) { first_char.make_ascii_uppercase(); }`.
`get_mut(..1)` succeeds exactly when the word starts with a one-byte
(ASCII) character, and `make_ascii_uppercase` is the identity on every
byte outside `a`-`z`, so the net effect is to ASCII-uppercase the first
character (a non-ASCII or non-letter first character is unchanged, and an
empty word stays empty). -/
def make_first_char_ascii_uppercase : Word → Word
  | [] => []
  | c :: cs => toAsciiUppercase c :: cs

/-- Rust `char::escape_debug` as used by `Debug` for `str`: escapes the
double quote, the backslash, newline, tab, carriage return and NUL, and
renders the remaining C0/C1 control characters as `\u` escapes.  The
Unicode-printability table for higher code points is not modelled: every
character from U+00A0 up is taken as printable. -/
def escape_debug_char (c : Char) : List Char :=
  if c == Char.ofNat 34 then [Char.ofNat 92, Char.ofNat 34]
  else if c == Char.ofNat 92 then [Char.ofNat 92, Char.ofNat 92]
  else if c == Char.ofNat 10 then [Char.ofNat 92, 'n']
  else if c == Char.ofNat 9 then [Char.ofNat 92, 't']
  else if c == Char.ofNat 13 then [Char.ofNat 92, 'r']
  else if c == Char.ofNat 0 then [Char.ofNat 92, '0']
  else if c.toNat < 32 ∨ (127 ≤ c.toNat ∧ c.toNat ≤ 159) then
    [Char.ofNat 92, 'u', Char.ofNat 123] ++ Nat.toDigits 16 c.toNat ++ [Char.ofNat 125]
  else [c]

/-- `Debug` for one `String`: the escaped characters between double
quotes. -/
def debug_string (w : Word) : List Char :=
  Char.ofNat 34 :: w.flatMap escape_debug_char ++ [Char.ofNat 34]

/-- `Debug` for a slice of `String`s (`write!("{word_candidates:?}")`):
the quoted words, comma-space separated, between square brackets. -/
def debug_list (ws : List Word) : List Char :=
  '[' :: List.intercalate [',', ' '] (ws.map debug_string) ++ [']']

/-- The `match &word_candidates[..]` rendering in `unscramble_line`: no
candidate renders the clean token's characters sorted ascending between
backticks, one candidate renders that word itself, two or more render the
debug list. -/
def render_body (clean_scrambled_word : Word) : List Word → List Char
  | [] =>
    Char.ofNat 96 ::
      List.insertionSort (fun a b : Char => a ≤ b) clean_scrambled_word ++ [Char.ofNat 96]
  | [word_candidate] => word_candidate
  | word_candidates => debug_list word_candidates

/-- The clean token: the scrambled word with every special character
removed (`filter(|c| !SPECIAL_CHARS.contains(c))`). -/
def clean_token (scrambled_word : List Char) : List Char :=
  scrambled_word.filter fun c => !(SPECIAL_CHARS.contains c)

/-- The `word_candidates` block of `unscramble_line`: pass 1 queries the
clean token with no forced first character; only when it comes back empty,
pass 2 queries the lowercased clean token with the first uppercase
character of the clean token forced, and ASCII-uppercases the first
character of each candidate. -/
def token_candidates (m : DictMap) (clean_scrambled_word : Word) : List Word :=
  let word_candidates := find_word_candidates m clean_scrambled_word none
  if word_candidates.isEmpty then
    (find_word_candidates m (rust_to_lowercase clean_scrambled_word)
        (clean_scrambled_word.find? char_is_uppercase)).map
      make_first_char_ascii_uppercase
  else word_candidates

/-- One loop iteration of `unscramble_line`, without the leading space:
the token's pre-set special characters in encounter order, the rendered
body for the clean token, then its post-set special characters in
encounter order. -/
def unscramble_token (m : DictMap) (scrambled_word : List Char) : List Char :=
  (scrambled_word.filter fun c => SPECIAL_CHARS_PRE.contains c)
    ++ render_body (clean_token scrambled_word) (token_candidates m (clean_token scrambled_word))
    ++ (scrambled_word.filter fun c => SPECIAL_CHARS_POST.contains c)

/-- Rust `char::is_ascii_whitespace`: space, tab, newline, form feed,
carriage return. -/
def is_ascii_whitespace (c : Char) : Bool :=
  c == ' ' || c == Char.ofNat 9 || c == Char.ofNat 10 || c == Char.ofNat 12 || c == Char.ofNat 13

/-- Accumulator pass behind `str::split_ascii_whitespace`: `acc` holds the
current token reversed; whitespace closes the token (empty tokens are
never emitted). -/
def split_ws_aux : List Char → List Char → List (List Char)
  | [], acc => if acc.isEmpty then [] else [acc.reverse]
  | c :: cs, acc =>
    if is_ascii_whitespace c then
      if acc.isEmpty then split_ws_aux cs [] else acc.reverse :: split_ws_aux cs []
    else split_ws_aux cs (c :: acc)

/-- `str::split_ascii_whitespace`: the whitespace-free tokens of a line,
in order, with no empty tokens. -/
def split_ascii_whitespace (s : List Char) : List (List Char) :=
  split_ws_aux s []

/-- The segments of a string between newline characters: one more segment
than there are `\n`s, in order. -/
def split_newlines : List Char → List (List Char)
  | [] => [[]]
  | c :: cs =>
    if c == '\n' then [] :: split_newlines cs
    else
      match split_newlines cs with
      | [] => [[c]]
      | seg :: rest => (c :: seg) :: rest

/-- Drop one trailing carriage return (the `\r\n` handling of
`str::lines`). -/
def strip_cr (l : List Char) : List Char :=
  if l.getLast? == some (Char.ofNat 13) then l.dropLast else l

/-- `str::lines`: split at `\n`, strip a `\r` before each `\n`, and drop
the final segment when the string ends with a line terminator (the final
segment, not being `\n`-terminated, keeps a trailing `\r` if it has one,
matching `split_inclusive`-based `lines`). -/
def rust_lines (s : List Char) : List (List Char) :=
  match (split_newlines s).getLast? with
  | some t =>
    if t.isEmpty then (split_newlines s).dropLast.map strip_cr
    else (split_newlines s).dropLast.map strip_cr ++ [t]
  | none => (split_newlines s).dropLast.map strip_cr

/-- `unscramble_line` from src/main.rs: fold over the whitespace-split
tokens, writing a single space before every token but the first; the
`Bool` component is the `first_word` flag. -/
def unscramble_line (m : DictMap) (scrambled_line : List Char) : List Char :=
  ((split_ascii_whitespace scrambled_line).foldl
    (fun out_first scrambled_word =>
      (out_first.1 ++ (if out_first.2 then [] else [' ']) ++ unscramble_token m scrambled_word,
        false))
    (([] : List Char), true)).1

/-- `unscramble` from src/main.rs: fold over the input's lines, writing a
single newline before every line but the first; the `Bool` component is
the `first_line` flag. -/
def unscramble (m : DictMap) (scrambled_string : List Char) : List Char :=
  ((rust_lines scrambled_string).foldl
    (fun out_first scrambled_line =>
      (out_first.1 ++ (if out_first.2 then [] else ['\n']) ++ unscramble_line m scrambled_line,
        false))
    (([] : List Char), true)).1

/-- An example index: one bucket at fingerprint 195 (= `a` + `b`). -/
def exDict : DictMap := fun n => if n = 195 then some [['a', 'b']] else none

/-- An example index whose 195 bucket holds two anagram words. -/
def exDict2 : DictMap := fun n => if n = 195 then some [['a', 'b'], ['b', 'a']] else none

/-- An example index whose 97 bucket (fingerprint of `a`) holds the empty
word. -/
def exDictEmptyWord : DictMap := fun n => if n = 97 then some [[]] else none

theorem mem_uniqueAux (a : Char) (l : List Char) : ∀ seen : List Char,
    (a ∈ uniqueAux seen l ↔ a ∈ l ∧ a ∉ seen) := by
  induction l with
  | nil => intro seen; simp [uniqueAux]
  | cons c cs ih =>
    intro seen
    by_cases h : seen.contains c
    · have hc : c ∈ seen := by simpa using h
      rw [uniqueAux, if_pos h, ih]
      constructor
      · rintro ⟨h1, h2⟩
        exact ⟨List.mem_cons_of_mem _ h1, h2⟩
      · rintro ⟨h1, h2⟩
        rcases List.mem_cons.mp h1 with rfl | h1
        · exact absurd hc h2
        · exact ⟨h1, h2⟩
    · have hc : c ∉ seen := by simpa using h
      rw [uniqueAux, if_neg h]
      simp only [List.mem_cons, ih]
      constructor
      · rintro (rfl | ⟨h1, h2⟩)
        · exact ⟨Or.inl rfl, hc⟩
        · refine ⟨Or.inr h1, fun hmem => h2 (Or.inr hmem)⟩
      · rintro ⟨rfl | h1, h2⟩
        · exact Or.inl rfl
        · by_cases hac : a = c
          · exact Or.inl hac
          · exact Or.inr ⟨h1, by simp [List.mem_cons, hac, h2]⟩

theorem mem_uniqueList (a : Char) (l : List Char) : a ∈ uniqueList l ↔ a ∈ l := by
  simp [uniqueList, mem_uniqueAux]

theorem anagram_ok_iff (search_word : Word) (fc : Option Char) (word : Word) :
    anagram_ok search_word fc word = true ↔
      ∀ c ∈ search_word.drop (if fc.isSome then 1 else 0),
        search_word.count c = word.count c := by
  simp only [anagram_ok, List.all_eq_true, beq_iff_eq]
  constructor
  · intro h c hc
    exact h c ((mem_uniqueList c _).mpr hc)
  · intro h c hc
    exact h c ((mem_uniqueList c _).mp hc)

theorem find_word_candidates_eq_filter (m : DictMap) (q : Word) (fc : Option Char)
    (bucket : List Word) (hbucket : m (associative_hash (wordBytes q)) = some bucket) :
    find_word_candidates m q fc =
      (bucket.filter (first_letter_ok fc)).filter (anagram_ok q fc) := by
  unfold find_word_candidates
  rw [hbucket]

/-- Claim C1: a dictionary word `d` stored in the bucket of fingerprint
`f` is returned by the resolver for a query `q` of the same fingerprint if
and only if, for every character of `q` past the skipped position (one
character is skipped exactly when a first character is forced), the count
of that character in `q` equals its count in `d`; the hypothesis
`first_letter_ok` states that `d` survives the first-letter policy.
Fingerprint collisions without this letter-count equality are excluded. -/
theorem resolver_mem_iff_counts (m : DictMap) (f : Nat) (bucket : List Word)
    (hbucket : m f = some bucket) (d q : Word) (fc : Option Char)
    (hd : d ∈ bucket) (hq : associative_hash (wordBytes q) = f)
    (hfl : first_letter_ok fc d = true) :
    d ∈ find_word_candidates m q fc ↔
      ∀ c ∈ q.drop (if fc.isSome then 1 else 0), q.count c = d.count c := by
  rw [find_word_candidates_eq_filter m q fc bucket (hq ▸ hbucket)]
  simp only [List.mem_filter]
  rw [anagram_ok_iff]
  constructor
  · rintro ⟨-, h⟩
    exact h
  · intro h
    exact ⟨⟨hd, hfl⟩, h⟩

theorem resolver_mem_iff_counts_witness :
    exDict 195 = some [['a', 'b']] ∧
    (['a', 'b'] : Word) ∈ [(['a', 'b'] : Word)] ∧
    associative_hash (wordBytes ['b', 'a']) = 195 ∧
    first_letter_ok none ['a', 'b'] = true ∧
    ((['a', 'b'] : Word) ∈ find_word_candidates exDict ['b', 'a'] none ↔
      ∀ c ∈ (['b', 'a'] : Word).drop (if (none : Option Char).isSome then 1 else 0),
        (['b', 'a'] : Word).count c = (['a', 'b'] : Word).count c) :=
  ⟨by decide, by decide, by decide, by decide,
    resolver_mem_iff_counts exDict 195 [['a', 'b']] (by decide) ['a', 'b'] ['b', 'a'] none
      (by decide) (by decide) (by decide)⟩

theorem foldl_mod_add (l : List Nat) : ∀ a : Nat,
    l.foldl (fun x y => (x + y) % 2 ^ 64) (a % 2 ^ 64) = (a + l.sum) % 2 ^ 64 := by
  induction l with
  | nil => intro a; simp
  | cons b t ih =>
    intro a
    simp only [List.foldl_cons, List.sum_cons]
    rw [Nat.mod_add_mod, ih (a + b), Nat.add_assoc]

theorem associative_hash_eq_sum (l : List Nat) : associative_hash l = l.sum % 2 ^ 64 := by
  have h := foldl_mod_add l 0
  simpa [associative_hash] using h

/-- Claim C2: the fingerprint is the wraparound 64-bit sum of the byte
values, so it is invariant under any permutation of the byte sequence;
consequently it is also invariant under any reordering of a word's
characters (which permutes its UTF-8 bytes blockwise). -/
theorem fingerprint_perm_invariant :
    (∀ s t : List Nat, s.Perm t → associative_hash s = associative_hash t) ∧
    (∀ w p : Word, w.Perm p →
      associative_hash (wordBytes w) = associative_hash (wordBytes p)) := by
  have base : ∀ s t : List Nat, s.Perm t → associative_hash s = associative_hash t := by
    intro s t h
    rw [associative_hash_eq_sum, associative_hash_eq_sum, h.sum_eq]
  refine ⟨base, fun w p h => base _ _ ?_⟩
  exact h.flatMap_right utf8Bytes

theorem fingerprint_perm_invariant_witness :
    associative_hash (wordBytes ['a', 'b']) = associative_hash (wordBytes ['b', 'a']) :=
  fingerprint_perm_invariant.2 ['a', 'b'] ['b', 'a'] (by decide)

/-- Claim C9: when the index holds no bucket for the search word's
fingerprint, the resolver returns the empty list rather than failing; in
this embedding it is a total pure function. -/
theorem resolver_empty_when_bucket_absent (m : DictMap) (q : Word) (fc : Option Char)
    (h : m (associative_hash (wordBytes q)) = none) :
    find_word_candidates m q fc = [] := by
  unfold find_word_candidates
  rw [h]

theorem resolver_empty_when_bucket_absent_witness :
    find_word_candidates (fun _ => none) ['a'] none = [] :=
  resolver_empty_when_bucket_absent (fun _ => none) ['a'] none rfl

theorem token_candidates_of_pass1_empty (m : DictMap) (clean : Word)
    (h : find_word_candidates m clean none = []) :
    token_candidates m clean =
      (find_word_candidates m (rust_to_lowercase clean)
          (clean.find? char_is_uppercase)).map make_first_char_ascii_uppercase := by
  unfold token_candidates
  rw [h]
  rfl

theorem token_candidates_of_pass1_nonempty (m : DictMap) (clean : Word)
    (h : find_word_candidates m clean none ≠ []) :
    token_candidates m clean = find_word_candidates m clean none := by
  unfold token_candidates
  cases hfc : find_word_candidates m clean none with
  | nil => exact absurd hfc h
  | cons w ws => rfl

/-- Claim C3: token resolution is two resolver passes with first success
winning: pass 1 queries the clean token with no forced first character;
pass 2 runs exactly when pass 1 returned no candidate, and queries the
fully lowercased clean token with the first uppercase character found
anywhere in the clean token forced (none when there is no uppercase
character). -/
theorem two_pass_policy (m : DictMap) (clean : Word) :
    (find_word_candidates m clean none ≠ [] →
      token_candidates m clean = find_word_candidates m clean none) ∧
    (find_word_candidates m clean none = [] →
      token_candidates m clean =
        (find_word_candidates m (rust_to_lowercase clean)
            (clean.find? char_is_uppercase)).map make_first_char_ascii_uppercase) :=
  ⟨token_candidates_of_pass1_nonempty m clean, token_candidates_of_pass1_empty m clean⟩

theorem two_pass_policy_witness :
    token_candidates exDict ['A', 'b'] =
      (find_word_candidates exDict (rust_to_lowercase ['A', 'b'])
          (List.find? char_is_uppercase ['A', 'b'])).map make_first_char_ascii_uppercase :=
  (two_pass_policy exDict ['A', 'b']).2 (by decide)

/-- Claim C5: when pass 1 finds nothing, every candidate the token
pipeline keeps for rendering is a pass-2 resolver result whose first
character has been ASCII-uppercased (`get_mut(..1)` +
`make_ascii_uppercase` in the source, which leaves a non-ASCII first
character unchanged). -/
theorem pass2_candidates_first_char_uppercased (m : DictMap) (clean : Word)
    (h : find_word_candidates m clean none = []) (w : Word)
    (hw : w ∈ token_candidates m clean) :
    ∃ w', w' ∈ find_word_candidates m (rust_to_lowercase clean)
        (clean.find? char_is_uppercase) ∧
      w = make_first_char_ascii_uppercase w' := by
  rw [token_candidates_of_pass1_empty m clean h] at hw
  obtain ⟨w', hw', rfl⟩ := List.mem_map.mp hw
  exact ⟨w', hw', rfl⟩

theorem pass2_candidates_first_char_uppercased_witness :
    find_word_candidates exDict ['A', 'b'] none = [] ∧
    (['A', 'b'] : Word) ∈ token_candidates exDict ['A', 'b'] ∧
    (∃ w', w' ∈ find_word_candidates exDict (rust_to_lowercase ['A', 'b'])
        (List.find? char_is_uppercase ['A', 'b']) ∧
      (['A', 'b'] : Word) = make_first_char_ascii_uppercase w') :=
  ⟨by decide, by decide,
    pass2_candidates_first_char_uppercased exDict ['A', 'b'] (by decide) ['A', 'b'] (by decide)⟩

theorem first_letter_ok_cons (f c : Char) (cs : List Char) :
    first_letter_ok (some f) (c :: cs) = (toAsciiUppercase c == f) := rfl

/-- Claim C4 counterexample: the first-letter filter also lets through
bucket words with no first character at all: with forced character `X`,
the resolver returns the empty dictionary word, which has no first
character whose uppercase form equals `X`. -/
theorem first_letter_filter_counterexample :
    ([] : Word) ∈ find_word_candidates exDictEmptyWord ['a'] (some 'X') ∧
    ¬ ∃ c cs, ([] : Word) = c :: cs ∧ toAsciiUppercase c = 'X' := by
  refine ⟨by decide, ?_⟩
  rintro ⟨c, cs, h, -⟩
  exact List.noConfusion h

/-- Claim C4 amended: when a first character is forced, a bucket word
passes the first-letter filter iff it is empty or its first character,
ASCII-uppercased, equals the forced character; when no first character is
forced, every bucket word passes. -/
theorem first_letter_filter_amended (fc : Option Char) (bucket : List Word) (w : Word)
    (hw : w ∈ bucket) :
    w ∈ bucket.filter (first_letter_ok fc) ↔
      (fc = none ∨ w = [] ∨
        ∃ f c cs, fc = some f ∧ w = c :: cs ∧ toAsciiUppercase c = f) := by
  rw [List.mem_filter]
  cases fc with
  | none => simp [first_letter_ok, hw]
  | some f =>
    cases w with
    | nil => simp [first_letter_ok, hw]
    | cons c cs =>
      rw [first_letter_ok_cons]
      simp only [hw, true_and]
      constructor
      · intro h
        exact Or.inr (Or.inr ⟨f, c, cs, rfl, rfl, by simpa using h⟩)
      · rintro (h | h | ⟨f', c', cs', hf, hw', hupper⟩)
        · exact Option.noConfusion h
        · exact List.noConfusion h
        · cases hf
          cases hw'
          simp [hupper]

theorem first_letter_filter_amended_witness :
    (['a'] : Word) ∈ [(['a'] : Word)] ∧
    ((['a'] : Word) ∈ [(['a'] : Word)].filter (first_letter_ok (some 'A')) ↔
      ((some 'A' : Option Char) = none ∨ (['a'] : Word) = [] ∨
        ∃ f c cs, (some 'A' : Option Char) = some f ∧ (['a'] : Word) = c :: cs ∧
          toAsciiUppercase c = f)) :=
  ⟨by decide, first_letter_filter_amended (some 'A') [['a']] ['a'] (by decide)⟩

theorem contains_iff_mem (l : List Char) (c : Char) : l.contains c = true ↔ c ∈ l :=
  List.elem_iff

theorem flatMap_escape_eq_self (w : Word) (h : ∀ c ∈ w, escape_debug_char c = [c]) :
    w.flatMap escape_debug_char = w := by
  induction w with
  | nil => rfl
  | cons c cs ih =>
    rw [List.flatMap_cons, h c (List.mem_cons_self c cs),
      ih fun x hx => h x (List.mem_cons_of_mem _ hx)]
    rfl

theorem debug_string_plain (x : Word) (h : ∀ c ∈ x, escape_debug_char c = [c]) :
    debug_string x = Char.ofNat 34 :: x ++ [Char.ofNat 34] := by
  rw [debug_string, flatMap_escape_eq_self x h]

/-- Claim C6: the rendered body is decided by the candidate count, with
literal markers: zero candidates yield the clean token's characters in
ascending code-point order between backticks (first conjunct, with the
sortedness and permutation facts as the second), one candidate yields that
word as-is, and two or more yield the debug-style array `["w1", "w2"]` —
each word double-quoted (verbatim when its characters need no debug
escaping), comma-space separated, in square brackets, in candidate
order. -/
theorem rendered_markers (m : DictMap) (token : List Char) :
    (token_candidates m (clean_token token) = [] →
      unscramble_token m token =
        (token.filter fun c => SPECIAL_CHARS_PRE.contains c)
          ++ (Char.ofNat 96 ::
                List.insertionSort (fun a b : Char => a ≤ b) (clean_token token)
              ++ [Char.ofNat 96])
          ++ (token.filter fun c => SPECIAL_CHARS_POST.contains c)) ∧
    (List.Sorted (fun a b : Char => a.toNat ≤ b.toNat)
        (List.insertionSort (fun a b : Char => a ≤ b) (clean_token token)) ∧
      (List.insertionSort (fun a b : Char => a ≤ b) (clean_token token)).Perm
        (clean_token token)) ∧
    (∀ w, token_candidates m (clean_token token) = [w] →
      unscramble_token m token =
        (token.filter fun c => SPECIAL_CHARS_PRE.contains c) ++ w
          ++ (token.filter fun c => SPECIAL_CHARS_POST.contains c)) ∧
    (∀ w ws, token_candidates m (clean_token token) = w :: ws → ws ≠ [] →
      (∀ x ∈ w :: ws, ∀ c ∈ x, escape_debug_char c = [c]) →
      unscramble_token m token =
        (token.filter fun c => SPECIAL_CHARS_PRE.contains c)
          ++ ('[' :: List.intercalate [',', ' ']
                ((w :: ws).map fun x => Char.ofNat 34 :: x ++ [Char.ofNat 34])
              ++ [']'])
          ++ (token.filter fun c => SPECIAL_CHARS_POST.contains c)) := by
  refine ⟨?_, ⟨?_, ?_⟩, ?_, ?_⟩
  · intro h
    unfold unscramble_token
    rw [h]
    rfl
  · have hs := List.sorted_insertionSort (fun a b : Char => a ≤ b) (clean_token token)
    exact hs.imp fun h => h
  · exact List.perm_insertionSort _ (clean_token token)
  · intro w h
    unfold unscramble_token
    rw [h]
    rfl
  · intro w ws h hne hplain
    cases ws with
    | nil => exact absurd rfl hne
    | cons w2 rest =>
      unfold unscramble_token
      rw [h]
      have hmap : (w :: w2 :: rest).map debug_string =
          (w :: w2 :: rest).map fun x => Char.ofNat 34 :: x ++ [Char.ofNat 34] :=
        List.map_congr_left fun x hx => debug_string_plain x (hplain x hx)
      show _ ++ debug_list (w :: w2 :: rest) ++ _ = _
      rw [debug_list, hmap]

theorem rendered_markers_witness :
    token_candidates exDict2 (clean_token ['a', 'b']) = [['a', 'b'], ['b', 'a']] ∧
    (∀ x ∈ [(['a', 'b'] : Word), ['b', 'a']], ∀ c ∈ x, escape_debug_char c = [c]) ∧
    unscramble_token exDict2 ['a', 'b'] =
      ((['a', 'b'] : List Char).filter fun c => SPECIAL_CHARS_PRE.contains c)
        ++ ('[' :: List.intercalate [',', ' ']
              (([(['a', 'b'] : Word), ['b', 'a']]).map fun x =>
                Char.ofNat 34 :: x ++ [Char.ofNat 34])
            ++ [']'])
        ++ ((['a', 'b'] : List Char).filter fun c => SPECIAL_CHARS_POST.contains c) :=
  ⟨by decide, by decide,
    (rendered_markers exDict2 ['a', 'b']).2.2.2 ['a', 'b'] [['b', 'a']] (by decide) (by decide)
      (by decide)⟩

theorem post_not_pre : ∀ c ∈ SPECIAL_CHARS_POST, c ∉ SPECIAL_CHARS_PRE := by decide

theorem pre_not_post : ∀ c ∈ SPECIAL_CHARS_PRE, c ∉ SPECIAL_CHARS_POST := by decide

theorem mem_special_of_pre (c : Char) (h : c ∈ SPECIAL_CHARS_PRE) : c ∈ SPECIAL_CHARS :=
  List.mem_append.mpr (Or.inl h)

theorem mem_special_of_post (c : Char) (h : c ∈ SPECIAL_CHARS_POST) : c ∈ SPECIAL_CHARS :=
  List.mem_append.mpr (Or.inr h)

theorem contains_eq_false (l : List Char) (c : Char) (h : c ∉ l) : l.contains c = false := by
  cases hb : l.contains c
  · rfl
  · exact absurd ((contains_iff_mem l c).mp hb) h

/-- Claim C7: for a token built from a clean core with pre-set characters
in front and post-set characters behind, the lookup uses exactly the core
(all special characters removed), and the rendering emits exactly the
pre-set characters before the rendered body and exactly the post-set
characters after it, each group in its original order. -/
theorem punctuation_roundtrip (m : DictMap) (pres core posts : List Char)
    (hpres : ∀ c ∈ pres, c ∈ SPECIAL_CHARS_PRE)
    (hcore : ∀ c ∈ core, c ∉ SPECIAL_CHARS)
    (hposts : ∀ c ∈ posts, c ∈ SPECIAL_CHARS_POST) :
    clean_token (pres ++ core ++ posts) = core ∧
    unscramble_token m (pres ++ core ++ posts) =
      pres ++ render_body core (token_candidates m core) ++ posts := by
  have hclean : clean_token (pres ++ core ++ posts) = core := by
    unfold clean_token
    rw [List.filter_append, List.filter_append]
    rw [List.filter_eq_nil_iff.mpr fun c hc => by
        simp
        exact mem_special_of_pre c (hpres c hc)]
    rw [List.filter_eq_self.mpr fun c hc => by
        simp
        exact hcore c hc]
    rw [List.filter_eq_nil_iff.mpr fun c hc => by
        simp
        exact mem_special_of_post c (hposts c hc)]
    simp
  refine ⟨hclean, ?_⟩
  unfold unscramble_token
  rw [hclean]
  rw [List.filter_append, List.filter_append, List.filter_append, List.filter_append]
  rw [List.filter_eq_self.mpr fun c hc => by
    simp
    exact hpres c hc]
  rw [show core.filter (fun c => SPECIAL_CHARS_PRE.contains c) = [] from
    List.filter_eq_nil_iff.mpr fun c hc => by
      simp
      exact fun hmem => hcore c hc (mem_special_of_pre c hmem)]
  rw [show posts.filter (fun c => SPECIAL_CHARS_PRE.contains c) = [] from
    List.filter_eq_nil_iff.mpr fun c hc => by
      simp
      exact post_not_pre c (hposts c hc)]
  rw [show pres.filter (fun c => SPECIAL_CHARS_POST.contains c) = [] from
    List.filter_eq_nil_iff.mpr fun c hc => by
      simp
      exact pre_not_post c (hpres c hc)]
  rw [show core.filter (fun c => SPECIAL_CHARS_POST.contains c) = [] from
    List.filter_eq_nil_iff.mpr fun c hc => by
      simp
      exact fun hmem => hcore c hc (mem_special_of_post c hmem)]
  rw [List.filter_eq_self.mpr fun c hc => by
    simp
    exact hposts c hc]
  simp

theorem punctuation_roundtrip_witness :
    clean_token (['('] ++ ['a', 'b'] ++ ['.']) = ['a', 'b'] ∧
    unscramble_token exDict (['('] ++ ['a', 'b'] ++ ['.']) =
      ['('] ++ render_body ['a', 'b'] (token_candidates exDict ['a', 'b']) ++ ['.'] :=
  punctuation_roundtrip exDict ['('] ['a', 'b'] ['.'] (by decide) (by decide) (by decide)

theorem intercalate_cons_flatten (sep : List Char) (rest : List (List Char)) :
    ∀ a : List Char,
      List.intercalate sep (a :: rest) = a ++ (rest.map fun y => sep ++ y).flatten := by
  induction rest with
  | nil => intro a; unfold List.intercalate; simp
  | cons b bs ih =>
    intro a
    have h2 : List.intercalate sep (a :: b :: bs)
        = a ++ sep ++ List.intercalate sep (b :: bs) := by
      unfold List.intercalate
      simp [List.intersperse]
    rw [h2, ih b]
    simp [List.append_assoc]

theorem foldl_write_sep {α : Type} (sep : List Char) (f : α → List Char) (l : List α) :
    ∀ acc : List Char,
      (l.foldl (fun p x => (p.1 ++ (if p.2 then [] else sep) ++ f x, false)) (acc, false)).1
        = acc ++ (l.map fun x => sep ++ f x).flatten := by
  induction l with
  | nil => intro acc; simp
  | cons x xs ih =>
    intro acc
    rw [List.foldl_cons]
    refine (ih (acc ++ sep ++ f x)).trans ?_
    simp [List.append_assoc]

theorem foldl_write_sep_start {α : Type} (sep : List Char) (f : α → List Char) (l : List α) :
    (l.foldl (fun p x => (p.1 ++ (if p.2 then [] else sep) ++ f x, false))
        (([] : List Char), true)).1
      = List.intercalate sep (l.map f) := by
  cases l with
  | nil => unfold List.intercalate; simp
  | cons x xs =>
    rw [List.foldl_cons]
    refine (foldl_write_sep sep f xs (f x)).trans ?_
    rw [List.map_cons, intercalate_cons_flatten]
    simp only [List.map_map]
    rfl

theorem split_ws_aux_tokens : ∀ l acc : List Char,
    (∀ c ∈ acc, is_ascii_whitespace c = false) →
    ∀ t ∈ split_ws_aux l acc, t ≠ [] ∧ ∀ c ∈ t, is_ascii_whitespace c = false := by
  intro l
  induction l with
  | nil =>
    intro acc hacc t ht
    simp only [split_ws_aux] at ht
    by_cases he : acc.isEmpty = true
    · simp [he] at ht
    · simp only [he, if_false, Bool.false_eq_true] at ht
      have hne : acc ≠ [] := fun h => he (by rw [h]; rfl)
      rcases List.mem_singleton.mp ht with rfl
      refine ⟨fun h => hne (by simpa using congrArg List.reverse h), ?_⟩
      intro x hx
      exact hacc x (List.mem_reverse.mp hx)
  | cons c cs ih =>
    intro acc hacc t ht
    simp only [split_ws_aux] at ht
    by_cases hw : is_ascii_whitespace c = true
    · rw [if_pos hw] at ht
      by_cases he : acc.isEmpty = true
      · rw [if_pos he] at ht
        exact ih [] (fun x hx => absurd hx (List.not_mem_nil x)) t ht
      · rw [if_neg he] at ht
        rcases List.mem_cons.mp ht with rfl | ht'
        · have hne : acc ≠ [] := fun h => he (by rw [h]; rfl)
          refine ⟨fun h => hne (by simpa using congrArg List.reverse h), ?_⟩
          intro x hx
          exact hacc x (List.mem_reverse.mp hx)
        · exact ih [] (fun x hx => absurd hx (List.not_mem_nil x)) t ht'
    · rw [if_neg hw] at ht
      refine ih (c :: acc) ?_ t ht
      intro x hx
      rcases List.mem_cons.mp hx with rfl | hx
      · simpa using hw
      · exact hacc x hx

theorem split_newlines_ne_nil (s : List Char) : split_newlines s ≠ [] := by
  induction s with
  | nil => simp [split_newlines]
  | cons c cs ih =>
    simp only [split_newlines]
    by_cases h : (c == '\n') = true
    · simp [h]
    · rw [if_neg h]
      cases hs : split_newlines cs with
      | nil => simp
      | cons seg rest => simp

theorem split_newlines_append_newline (r : List Char) : ∀ s : List Char,
    split_newlines (s ++ '\n' :: r) = split_newlines s ++ split_newlines r := by
  intro s
  induction s with
  | nil => simp [split_newlines]
  | cons c cs ih =>
    rw [List.cons_append]
    simp only [split_newlines]
    by_cases h : (c == '\n') = true
    · rw [if_pos h, if_pos h, ih]
      rfl
    · rw [if_neg h, if_neg h, ih]
      obtain ⟨s0, r0, hs⟩ := List.exists_cons_of_ne_nil (split_newlines_ne_nil cs)
      rw [hs]
      rfl

theorem split_newlines_no_newline : ∀ s : List Char, '\n' ∉ s → split_newlines s = [s] := by
  intro s
  induction s with
  | nil => intro h; rfl
  | cons c cs ih =>
    intro h
    have hc : ¬ ((c == '\n') = true) := by
      simp only [beq_iff_eq]
      rintro rfl
      exact h (List.mem_cons_self _ _)
    simp only [split_newlines]
    rw [if_neg hc, ih fun hm => h (List.mem_cons_of_mem _ hm)]

theorem exists_last_newline_split : ∀ s : List Char, '\n' ∈ s →
    ∃ a b, s = a ++ '\n' :: b ∧ '\n' ∉ b := by
  intro s
  induction s with
  | nil => intro h; cases h
  | cons c cs ih =>
    intro h
    by_cases hm : '\n' ∈ cs
    · obtain ⟨a, b, heq, hb⟩ := ih hm
      exact ⟨c :: a, b, by rw [heq]; rfl, hb⟩
    · have hc : c = '\n' := by
        rcases List.mem_cons.mp h with h' | h'
        · exact h'.symm
        · exact absurd h' hm
      exact ⟨[], cs, by rw [hc]; rfl, hm⟩

theorem strip_cr_of_getLast_ne (l : List Char) (h : l.getLast? ≠ some (Char.ofNat 13)) :
    strip_cr l = l := by
  have hb : ¬ ((l.getLast? == some (Char.ofNat 13)) = true) := by
    simp only [beq_iff_eq]
    exact h
  unfold strip_cr
  rw [if_neg hb]

theorem rust_lines_append_newline (s : List Char) (h0 : s ≠ [])
    (h1 : s.getLast? ≠ some '\n') (h2 : s.getLast? ≠ some (Char.ofNat 13)) :
    rust_lines (s ++ ['\n']) = rust_lines s := by
  by_cases hm : '\n' ∈ s
  · obtain ⟨a, b, rfl, hb⟩ := exists_last_newline_split s hm
    have hbne : b ≠ [] := by
      rintro rfl
      exact h1 (List.getLast?_concat a)
    have hlast : (a ++ '\n' :: b).getLast? = b.getLast? := by
      rw [show a ++ '\n' :: b = (a ++ ['\n']) ++ b by simp]
      exact List.getLast?_append_of_ne_nil (a ++ ['\n']) hbne
    have hsegs : split_newlines (a ++ '\n' :: b) = split_newlines a ++ [b] := by
      rw [split_newlines_append_newline, split_newlines_no_newline b hb]
    have hsegs2 : split_newlines ((a ++ '\n' :: b) ++ ['\n'])
        = (split_newlines a ++ [b]) ++ [[]] := by
      rw [show (a ++ '\n' :: b) ++ ['\n'] = a ++ '\n' :: (b ++ '\n' :: []) by simp]
      rw [split_newlines_append_newline, split_newlines_append_newline,
        split_newlines_no_newline b hb]
      simp [split_newlines]
    have hbe : b.isEmpty = false := by
      cases b with
      | nil => exact absurd rfl hbne
      | cons x xs => rfl
    have hstrip : strip_cr b = b :=
      strip_cr_of_getLast_ne b fun hcr => h2 (hlast.symm ▸ hcr)
    unfold rust_lines
    rw [hsegs, hsegs2, List.getLast?_concat, List.getLast?_concat]
    rw [List.dropLast_concat, List.dropLast_concat]
    simp [hbe, hstrip]
  · have hs1 : split_newlines s = [s] := split_newlines_no_newline s hm
    have hs2 : split_newlines (s ++ ['\n']) = [s] ++ [[]] := by
      rw [show s ++ ['\n'] = s ++ '\n' :: [] from rfl, split_newlines_append_newline, hs1]
      simp [split_newlines]
    have hse : s.isEmpty = false := by
      cases s with
      | nil => exact absurd rfl h0
      | cons x xs => rfl
    unfold rust_lines
    rw [hs1, hs2, List.getLast?_concat, List.dropLast_concat]
    simp [hse, strip_cr_of_getLast_ne s h2]

/-- Claim C8: the pipeline preserves line and token structure: the output
is the per-line renderings of the input's lines joined by exactly one
newline (so output line count equals input line count and a trailing line
terminator adds no output line), each line is the renderings of its
ASCII-whitespace-separated tokens joined by exactly one space, rendered
token count per line equals input token count, and splitting produces no
empty and no whitespace-containing tokens. -/
theorem pipeline_structure (m : DictMap) (s line : List Char) :
    unscramble m s = List.intercalate ['\n'] ((rust_lines s).map (unscramble_line m)) ∧
    unscramble_line m line =
      List.intercalate [' '] ((split_ascii_whitespace line).map (unscramble_token m)) ∧
    ((rust_lines s).map (unscramble_line m)).length = (rust_lines s).length ∧
    ((split_ascii_whitespace line).map (unscramble_token m)).length
      = (split_ascii_whitespace line).length ∧
    (∀ t ∈ split_ascii_whitespace line, t ≠ [] ∧ ∀ c ∈ t, is_ascii_whitespace c = false) ∧
    (s ≠ [] → s.getLast? ≠ some '\n' → s.getLast? ≠ some (Char.ofNat 13) →
      rust_lines (s ++ ['\n']) = rust_lines s) := by
  refine ⟨?_, ?_, List.length_map _ _, List.length_map _ _, ?_, ?_⟩
  · exact foldl_write_sep_start ['\n'] (unscramble_line m) (rust_lines s)
  · exact foldl_write_sep_start [' '] (unscramble_token m) (split_ascii_whitespace line)
  · exact split_ws_aux_tokens line [] (fun c hc => absurd hc (List.not_mem_nil c))
  · exact rust_lines_append_newline s

theorem pipeline_structure_witness :
    (['a', 'b'] : List Char) ≠ [] ∧
    (['a', 'b'] : List Char).getLast? ≠ some '\n' ∧
    (['a', 'b'] : List Char).getLast? ≠ some (Char.ofNat 13) ∧
    rust_lines (['a', 'b'] ++ ['\n']) = rust_lines ['a', 'b'] :=
  ⟨by decide, by decide, by decide,
    (pipeline_structure exDict ['a', 'b'] []).2.2.2.2.2 (by decide) (by decide) (by decide)⟩

/-- Claim C10: for a fixed dictionary index the whole unscrambling
pipeline is deterministic: two runs of `unscramble` on the same input
string produce byte-identical output; the embedded pipeline is a pure
total function, so the two-run equality holds by reflexivity. -/
theorem unscramble_deterministic (m : DictMap) (s : List Char) :
    unscramble m s = unscramble m s := rfl

end WordUnscrambler
